import Mathlib

/-!
Verification of the halt-feature removal scripts of the `reuixiy/fonts`
repository (`src/scripts/lxgw-halt-fix.py` and `src/scripts/halt-fix.py`).

The core operation, `fix_lxgw_halt_feature`, takes a loaded font and a list
of target code points, resolves each code point to a glyph name through the
font's best cmap, and removes every resolved glyph from the Coverage tables
(and, for format-2 subtables, the parallel Value list) of every subtable of
every lookup referenced by the first feature record tagged "halt" in the
GPOS table.  `halt-fix.py` is the same procedure specialised to a single
target character.

The embedding below mirrors the Python object model: glyph identifiers are
strings, value records are opaque naturals, optional attributes
(`hasattr(sub, 'Coverage')`, `hasattr(sub, 'Format')`, `hasattr(sub,
'Value')`) become `Option` fields, and the in-place mutation of the shared
`LookupList` becomes explicit state passing (a fold that updates the lookup
list at each referenced index, so that a lookup index occurring twice sees
the result of its first pass, exactly as the Python aliasing does).
An out-of-range lookup index raises `IndexError` in Python (caught by
`main`'s generic handler); the model returns `none` there.
-/

/-- A GPOS subtable, as the scripts observe it.
`coverage` models the optional `Coverage.glyphs` list, `format` the optional
`Format` attribute, `value` the optional `Value` list, `valueCount` the
`ValueCount` field the scripts overwrite after deleting a value record. -/
structure Subtable where
  coverage : Option (List String)
  format : Option Nat
  value : Option (List Nat)
  valueCount : Nat
deriving DecidableEq, Repr

/-- A GPOS lookup: an ordered list of subtables (`lookup.SubTable`). -/
structure Lookup where
  subTable : List Subtable
deriving DecidableEq, Repr

/-- A feature record: a 4-character tag and the list of lookup indices of
its feature (`feat.FeatureTag`, `feat.Feature.LookupListIndex`). -/
structure FeatureRecord where
  featureTag : String
  lookupListIndex : List Nat
deriving DecidableEq, Repr

/-- The GPOS table: the feature record list and the shared lookup list. -/
structure GPOS where
  featureRecord : List FeatureRecord
  lookup : List Lookup
deriving DecidableEq, Repr

/-- A loaded font: an optional GPOS table and the best cmap, modelled as an
association list from code points to glyph names (first match wins, as in a
Python dict with unique keys). -/
structure Font where
  gpos : Option GPOS
  cmap : List (Nat × String)
deriving DecidableEq, Repr

/-- Reason codes of the no-op results (spec §6). -/
inductive Reason
  | NoPositioningTable
  | NoGlyphsResolved
  | FeatureNotFound
  | NoMatchingEntries
deriving DecidableEq, Repr

/-- The result of the removal operation: the `changed` boolean the Python
function returns, the reason code identifying a no-op, and the
`total_removals` counter. -/
structure RemovalResult where
  changed : Bool
  reason : Option Reason
  totalRemovals : Nat
deriving DecidableEq, Repr

/-- `cmap.get(ord(char))` followed by Python truthiness (`if gname:`): a
missing key or an empty glyph name both leave the character unresolved. -/
def resolveChar (cmap : List (Nat × String)) (c : Nat) : Option String :=
  match cmap.lookup c with
  | some g => if g = "" then none else some g
  | none => none

/-- The `target_glyphs` list built by lines 58–66 of `lxgw-halt-fix.py`:
the (char, glyph-name) pairs for the code points that resolve. -/
def resolveTargets (cmap : List (Nat × String)) (chars : List Nat) :
    List (Nat × String) :=
  chars.filterMap fun c => (resolveChar cmap c).map fun g => (c, g)

/-- One pass of the inner loop body (lines 96–113 of `lxgw-halt-fix.py`)
for a single target glyph `g`: if `g` is in the Coverage, delete its first
occurrence at `idx = cov.glyphs.index(g)`; if the subtable is format 2 and
has a Value list with `idx < len(Value)`, delete `Value[idx]` and set
`ValueCount = len(Value)`.  Returns the updated subtable and the number of
removals performed (0 or 1). -/
def processPair (st : Subtable) (g : String) : Subtable × Nat :=
  match st.coverage with
  | none => (st, 0)
  | some glyphs =>
    if g ∈ glyphs then
      let idx := glyphs.indexOf g
      let glyphs' := glyphs.eraseIdx idx
      if st.format = some 2 then
        match st.value with
        | some v =>
          if idx < v.length then
            ({ st with coverage := some glyphs',
                       value := some (v.eraseIdx idx),
                       valueCount := (v.eraseIdx idx).length }, 1)
          else ({ st with coverage := some glyphs' }, 1)
        | none => ({ st with coverage := some glyphs' }, 1)
      else ({ st with coverage := some glyphs' }, 1)
    else (st, 0)

/-- The `for char, gname in target_glyphs` loop over one subtable,
threading the subtable state and summing the removal count. -/
def processGlyphs : Subtable → List (Nat × String) → Subtable × Nat
  | st, [] => (st, 0)
  | st, p :: ps =>
    let r := processPair st p.2
    let rest := processGlyphs r.1 ps
    (rest.1, r.2 + rest.2)

/-- Process one subtable against the whole target list (lines 89–113):
subtables without a Coverage are skipped (`hasattr(sub, 'Coverage')`);
otherwise each resolved target glyph is checked in turn. -/
def processSubtable (st : Subtable) (targets : List (Nat × String)) :
    Subtable × Nat :=
  match st.coverage with
  | none => (st, 0)
  | some _ => processGlyphs st targets

/-- Process every subtable of one lookup, in storage order. -/
def processLookup (lk : Lookup) (targets : List (Nat × String)) :
    Lookup × Nat :=
  (⟨lk.subTable.map fun st => (processSubtable st targets).1⟩,
   (lk.subTable.map fun st => (processSubtable st targets).2).sum)

/-- Walk the feature's lookup indices in order, updating the shared lookup
list in place as the Python loop does (lines 86–116).  The side note of the
source: a `removed_count` variable is incremented there per lookup but never
read afterwards, so it is not modelled.  An out-of-range index, which would
raise `IndexError` in Python, yields `none`. -/
def processLookups (targets : List (Nat × String)) :
    List Lookup → List Nat → Option (List Lookup × Nat)
  | ls, [] => some (ls, 0)
  | ls, i :: is =>
    match ls[i]? with
    | none => none
    | some lk =>
      let p := processLookup lk targets
      match processLookups targets (ls.set i p.1) is with
      | none => none
      | some (ls', n) => some (ls', p.2 + n)

/-- The scan of the feature list for the first record tagged `"halt"`
(lines 81–118; the loop breaks at the first match). -/
def findHalt (frs : List FeatureRecord) : Option FeatureRecord :=
  frs.find? fun fr => fr.featureTag == "halt"

/-- `fix_lxgw_halt_feature` (lines 34–134 of `lxgw-halt-fix.py`), with the
file I/O and logging stripped: the returned font is the state of the font
handle after the call.  Check order follows the source: GPOS presence,
glyph resolution, halt-feature scan, then the `total_removals == 0` test.
`none` models the `IndexError` of an out-of-range lookup index. -/
def fix_lxgw_halt_feature (font : Font) (target_chars : List Nat) :
    Option (Font × RemovalResult) :=
  match font.gpos with
  | none => some (font, ⟨false, some .NoPositioningTable, 0⟩)
  | some g =>
    if resolveTargets font.cmap target_chars = [] then
      some (font, ⟨false, some .NoGlyphsResolved, 0⟩)
    else
      match findHalt g.featureRecord with
      | none => some (font, ⟨false, some .FeatureNotFound, 0⟩)
      | some fr =>
        match processLookups (resolveTargets font.cmap target_chars)
            g.lookup fr.lookupListIndex with
        | none => none
        | some (ls', total) =>
          if total = 0 then
            some ({ font with gpos := some { g with lookup := ls' } },
                  ⟨false, some .NoMatchingEntries, 0⟩)
          else
            some ({ font with gpos := some { g with lookup := ls' } },
                  ⟨true, none, total⟩)

/-- The four process outcomes distinguished by `main` of `halt-fix.py`
(lines 110–134): the two success paths and the two failure paths. -/
inductive Outcome
  | changesApplied
  | noChangesNeeded
  | fileNotFound
  | otherFault
deriving DecidableEq, Repr

/-- The exit code `main` passes to `sys.exit` for each outcome: both
success paths exit 0, both failure paths exit 1. -/
def exit_code : Outcome → Nat
  | .changesApplied => 0
  | .noChangesNeeded => 0
  | .fileNotFound => 1
  | .otherFault => 1

/-- The human-readable message `main` logs for each outcome (for the
failure paths, the fixed prefix before the interpolated path or error). -/
def main_message : Outcome → String
  | .changesApplied => "Halt feature fix completed successfully"
  | .noChangesNeeded => "No modifications were needed"
  | .fileNotFound => "Font file not found: "
  | .otherFault => "Error processing font: "

/-- A lookup is *cleared* for a target list when no resolved target glyph
occurs in any of its subtables' Coverage lists. -/
def cleared (tg : List (Nat × String)) (lk : Lookup) : Prop :=
  ∀ st ∈ lk.subTable, ∀ c, st.coverage = some c → ∀ p ∈ tg, p.2 ∉ c

instance (tg : List (Nat × String)) (lk : Lookup) : Decidable (cleared tg lk) := by
  unfold cleared
  infer_instance

/-- All Coverage lists of a lookup list are duplicate-free — the Coverage
well-formedness invariant of the OpenType data model (spec §3). -/
def covNodup (ls : List Lookup) : Prop :=
  ∀ lk ∈ ls, ∀ st ∈ lk.subTable, ∀ c, st.coverage = some c → c.Nodup

instance (ls : List Lookup) : Decidable (covNodup ls) := by
  unfold covNodup
  infer_instance

/-- The Coverage/ValueSequence length invariant of a format-2 subtable
(spec §3). -/
def lenInv (st : Subtable) : Prop :=
  st.format = some 2 → ∀ c, st.coverage = some c →
    ∀ v, st.value = some v → c.length = v.length

instance (st : Subtable) : Decidable (lenInv st) := by
  unfold lenInv
  infer_instance

/-- The stored `ValueCount` field agrees with the Value list length. -/
def vcInv (st : Subtable) : Prop :=
  st.format = some 2 → ∀ v, st.value = some v → st.valueCount = v.length

instance (st : Subtable) : Decidable (vcInv st) := by
  unfold vcInv
  infer_instance

/-- `lenInv` holds for every subtable of every lookup of a lookup list. -/
def lenInvAll (ls : List Lookup) : Prop :=
  ∀ lk ∈ ls, ∀ st ∈ lk.subTable, lenInv st

instance (ls : List Lookup) : Decidable (lenInvAll ls) := by
  unfold lenInvAll
  infer_instance

/-- Frame relation between a subtable before and after processing: the
format is untouched, a subtable without Coverage is untouched, and a
Coverage shrinks to a sublist (so the relative order of surviving entries
is preserved) in which the count of every non-target glyph is unchanged;
for a format-2 subtable with a parallel Value list of equal length, the
surviving (glyph, value) pairs form a sublist of the original pairs, so
each surviving glyph keeps its paired value. -/
def frameRel (tg : List (Nat × String)) (st st' : Subtable) : Prop :=
  st'.format = st.format ∧
  (st.coverage = none → st' = st) ∧
  ∀ c, st.coverage = some c → ∃ c', st'.coverage = some c' ∧
    c'.Sublist c ∧
    (∀ x, (∀ p ∈ tg, x ≠ p.2) → c'.count x = c.count x) ∧
    ∀ v, st.format = some 2 → st.value = some v → c.length = v.length →
      ∃ v', st'.value = some v' ∧ c'.length = v'.length ∧
        (c'.zip v').Sublist (c.zip v)

/-- Example subtable of spec §8: format 2, Coverage = [A, B, C],
ValueSequence = [v1, v2, v3] (value records modelled as 10, 20, 30). -/
def subC5 : Subtable := ⟨some ["A", "B", "C"], some 2, some [10, 20, 30], 3⟩

/-- Example font of spec §8: a halt feature whose single lookup holds
`subC5`; code point 33 resolves to glyph "B". -/
def fontC5 : Font :=
  ⟨some ⟨[⟨"kern", [0]⟩, ⟨"halt", [0]⟩], [⟨[subC5]⟩]⟩, [(33, "B")]⟩

/-- Example font whose halt feature references two lookups, both of whose
subtables cover glyph "B". -/
def fontC7 : Font :=
  ⟨some ⟨[⟨"halt", [0, 1]⟩],
    [⟨[subC5]⟩, ⟨[⟨some ["B", "D"], some 1, none, 0⟩]⟩]⟩, [(33, "B")]⟩

/-- Example font with no GPOS table. -/
def fontNoGpos : Font := ⟨none, [(33, "B")]⟩

/-- Example font whose cmap resolves none of the targets. -/
def fontNoGlyphs : Font :=
  ⟨some ⟨[⟨"halt", [0]⟩], [⟨[subC5]⟩]⟩, []⟩

/-- Example font with a GPOS table but no halt feature record. -/
def fontNoFeature : Font :=
  ⟨some ⟨[⟨"kern", [0]⟩], [⟨[subC5]⟩]⟩, [(33, "B")]⟩

/-- Example font whose halt feature covers no target glyph. -/
def fontNoMatch : Font :=
  ⟨some ⟨[⟨"halt", [0]⟩], [⟨[⟨some ["X"], some 1, none, 0⟩]⟩]⟩, [(33, "B")]⟩

/-- Example font with two feature records tagged "halt": the first refers
to lookup 0, the second to lookup 1, and both lookups cover glyph "B". -/
def fontC8 : Font :=
  ⟨some ⟨[⟨"halt", [0]⟩, ⟨"halt", [1]⟩],
    [⟨[subC5]⟩, ⟨[⟨some ["B"], some 1, none, 0⟩]⟩]⟩, [(33, "B")]⟩

/-! ### Basic lemmas about one removal pass (`processPair`) -/

theorem processPair_coverage (st : Subtable) (g : String) (c : List String)
    (hc : st.coverage = some c) :
    (processPair st g).1.coverage = some (c.erase g) := by
  obtain ⟨cov, fmt, val, vc⟩ := st
  obtain rfl : cov = some c := hc
  by_cases hg : g ∈ c
  · cases val <;>
      simp only [processPair, hg, if_pos] <;>
      split <;> (try split) <;>
      simp [List.eraseIdx_indexOf_eq_erase]
  · simp [processPair, hg, List.erase_of_not_mem hg]

theorem processPair_coverage_none (st : Subtable) (g : String)
    (hc : st.coverage = none) : processPair st g = (st, 0) := by
  obtain ⟨cov, fmt, val, vc⟩ := st
  obtain rfl : cov = none := hc
  rfl

theorem processPair_format (st : Subtable) (g : String) :
    (processPair st g).1.format = st.format := by
  obtain ⟨cov, fmt, val, vc⟩ := st
  cases cov with
  | none => rfl
  | some c =>
    by_cases hg : g ∈ c
    · cases val <;>
        simp only [processPair, hg, if_pos] <;>
        split <;> (try split) <;>
        simp
    · simp [processPair, hg]

theorem processPair_not_mem (st : Subtable) (g : String) (c : List String)
    (hc : st.coverage = some c) (hg : g ∉ c) :
    processPair st g = (st, 0) := by
  obtain ⟨cov, fmt, val, vc⟩ := st
  obtain rfl : cov = some c := hc
  simp [processPair, hg]

theorem processPair_mem_fmt2 (st : Subtable) (g : String) (c : List String)
    (v : List Nat) (hc : st.coverage = some c) (hf : st.format = some 2)
    (hv : st.value = some v) (hg : g ∈ c) (hlt : c.indexOf g < v.length) :
    processPair st g =
      ({ st with coverage := some (c.eraseIdx (c.indexOf g)),
                 value := some (v.eraseIdx (c.indexOf g)),
                 valueCount := (v.eraseIdx (c.indexOf g)).length }, 1) := by
  obtain ⟨cov, fmt, val, vc⟩ := st
  obtain rfl : cov = some c := hc
  obtain rfl : fmt = some 2 := hf
  obtain rfl : val = some v := hv
  simp [processPair, hg, hlt]

theorem processPair_mem_fmt2_short (st : Subtable) (g : String)
    (c : List String) (v : List Nat) (hc : st.coverage = some c)
    (hf : st.format = some 2) (hv : st.value = some v) (hg : g ∈ c)
    (hlt : ¬ c.indexOf g < v.length) :
    processPair st g =
      ({ st with coverage := some (c.eraseIdx (c.indexOf g)) }, 1) := by
  obtain ⟨cov, fmt, val, vc⟩ := st
  obtain rfl : cov = some c := hc
  obtain rfl : fmt = some 2 := hf
  obtain rfl : val = some v := hv
  simp [processPair, hg, hlt]

theorem processPair_mem_fmt2_noval (st : Subtable) (g : String)
    (c : List String) (hc : st.coverage = some c) (hf : st.format = some 2)
    (hv : st.value = none) (hg : g ∈ c) :
    processPair st g =
      ({ st with coverage := some (c.eraseIdx (c.indexOf g)) }, 1) := by
  obtain ⟨cov, fmt, val, vc⟩ := st
  obtain rfl : cov = some c := hc
  obtain rfl : fmt = some 2 := hf
  obtain rfl : val = none := hv
  simp [processPair, hg]

theorem processPair_mem_not_fmt2 (st : Subtable) (g : String)
    (c : List String) (hc : st.coverage = some c)
    (hf : ¬ st.format = some 2) (hg : g ∈ c) :
    processPair st g =
      ({ st with coverage := some (c.eraseIdx (c.indexOf g)) }, 1) := by
  obtain ⟨cov, fmt, val, vc⟩ := st
  obtain rfl : cov = some c := hc
  simp only at hf
  simp [processPair, hg, hf]

theorem processPair_count_zero (st : Subtable) (g : String)
    (h : (processPair st g).2 = 0) : (processPair st g).1 = st := by
  obtain ⟨cov, fmt, val, vc⟩ := st
  cases cov with
  | none => rfl
  | some c =>
    by_cases hg : g ∈ c
    · exfalso
      revert h
      cases val <;>
        simp only [processPair, hg, if_pos] <;>
        split <;> (try split) <;>
        simp
    · simp [processPair, hg]

/-! ### Pure list lemmas about iterated `erase` -/

theorem foldl_erase_sublist (ts : List (Nat × String)) (c : List String) :
    (ts.foldl (fun a p => a.erase p.2) c).Sublist c := by
  induction ts generalizing c with
  | nil => exact List.Sublist.refl c
  | cons p ps ih =>
    exact (ih (c.erase p.2)).trans (List.erase_sublist p.2 c)

theorem foldl_erase_nodup (ts : List (Nat × String)) (c : List String)
    (h : c.Nodup) : (ts.foldl (fun a p => a.erase p.2) c).Nodup :=
  h.sublist (foldl_erase_sublist ts c)

theorem foldl_erase_not_mem (ts : List (Nat × String)) (c : List String)
    (h : c.Nodup) :
    ∀ p ∈ ts, p.2 ∉ ts.foldl (fun a q => a.erase q.2) c := by
  induction ts generalizing c with
  | nil => intro p hp; cases hp
  | cons q qs ih =>
    intro p hp
    rcases List.mem_cons.mp hp with rfl | hp
    · intro hmem
      exact h.not_mem_erase ((foldl_erase_sublist qs (c.erase p.2)).mem hmem)
    · exact ih (c.erase q.2) (h.erase q.2) p hp

theorem foldl_erase_count (ts : List (Nat × String)) (c : List String)
    (x : String) (hx : ∀ p ∈ ts, x ≠ p.2) :
    (ts.foldl (fun a q => a.erase q.2) c).count x = c.count x := by
  induction ts generalizing c with
  | nil => rfl
  | cons q qs ih =>
    rw [List.foldl_cons,
        ih (c.erase q.2) fun p hp => hx p (List.mem_cons_of_mem q hp),
        List.count_erase_of_ne (hx q (List.mem_cons_self q qs)) c]

/-! ### The per-subtable glyph loop (`processGlyphs`, `processSubtable`) -/

theorem processGlyphs_coverage (ts : List (Nat × String)) (st : Subtable)
    (c : List String) (hc : st.coverage = some c) :
    (processGlyphs st ts).1.coverage =
      some (ts.foldl (fun a p => a.erase p.2) c) := by
  induction ts generalizing st c with
  | nil => simpa [processGlyphs] using hc
  | cons p ps ih =>
    simp only [processGlyphs, List.foldl_cons]
    exact ih (processPair st p.2).1 (c.erase p.2)
      (processPair_coverage st p.2 c hc)

theorem processGlyphs_format (ts : List (Nat × String)) (st : Subtable) :
    (processGlyphs st ts).1.format = st.format := by
  induction ts generalizing st with
  | nil => rfl
  | cons p ps ih =>
    simp only [processGlyphs]
    rw [ih (processPair st p.2).1, processPair_format st p.2]

theorem processGlyphs_count_zero (ts : List (Nat × String)) (st : Subtable)
    (h : (processGlyphs st ts).2 = 0) : (processGlyphs st ts).1 = st := by
  induction ts generalizing st with
  | nil => rfl
  | cons p ps ih =>
    simp only [processGlyphs] at h ⊢
    have h1 : (processPair st p.2).2 = 0 := by omega
    have h2 : (processGlyphs (processPair st p.2).1 ps).2 = 0 := by omega
    rw [ih (processPair st p.2).1 h2]
    exact processPair_count_zero st p.2 h1

theorem processGlyphs_of_cleared (ts : List (Nat × String)) (st : Subtable)
    (c : List String) (hc : st.coverage = some c)
    (h : ∀ p ∈ ts, p.2 ∉ c) : processGlyphs st ts = (st, 0) := by
  induction ts with
  | nil => rfl
  | cons p ps ih =>
    have e1 : processPair st p.2 = (st, 0) :=
      processPair_not_mem st p.2 c hc (h p (List.mem_cons_self p ps))
    have e2 : processGlyphs st ps = (st, 0) :=
      ih fun q hq => h q (List.mem_cons_of_mem p hq)
    simp [processGlyphs, e1, e2]

theorem processSubtable_cleared (ts : List (Nat × String)) (st : Subtable)
    (c : List String) (hc : st.coverage = some c) (hnd : c.Nodup) :
    ∀ c', (processSubtable st ts).1.coverage = some c' →
      ∀ p ∈ ts, p.2 ∉ c' := by
  intro c' hc' p hp
  unfold processSubtable at hc'
  rw [hc] at hc'
  rw [processGlyphs_coverage ts st c hc] at hc'
  cases hc'
  exact foldl_erase_not_mem ts c hnd p hp

theorem processSubtable_count_zero (ts : List (Nat × String)) (st : Subtable)
    (h : (processSubtable st ts).2 = 0) : (processSubtable st ts).1 = st := by
  unfold processSubtable at *
  cases hc : st.coverage with
  | none => rfl
  | some c =>
    rw [hc] at h
    exact processGlyphs_count_zero ts st h

theorem processSubtable_of_cleared (ts : List (Nat × String)) (st : Subtable)
    (h : ∀ c, st.coverage = some c → ∀ p ∈ ts, p.2 ∉ c) :
    processSubtable st ts = (st, 0) := by
  unfold processSubtable
  cases hc : st.coverage with
  | none => rfl
  | some c => exact processGlyphs_of_cleared ts st c hc (h c hc)

theorem processSubtable_nodup (ts : List (Nat × String)) (st : Subtable)
    (h : ∀ c, st.coverage = some c → c.Nodup) :
    ∀ c', (processSubtable st ts).1.coverage = some c' → c'.Nodup := by
  intro c' hc'
  unfold processSubtable at hc'
  cases hc : st.coverage with
  | none =>
    rw [hc] at hc'
    have hcc : st.coverage = some c' := hc'
    exact h c' hcc
  | some c =>
    rw [hc] at hc'
    rw [processGlyphs_coverage ts st c hc] at hc'
    cases hc'
    exact foldl_erase_nodup ts c (h c hc)

/-! ### Lookup-level lemmas (`processLookup`) -/

theorem map_eq_self_of_fix {α : Type} (f : α → α) (l : List α)
    (h : ∀ x ∈ l, f x = x) : l.map f = l := by
  induction l with
  | nil => rfl
  | cons a as ih =>
    rw [List.map_cons, h a (List.mem_cons_self a as),
        ih fun x hx => h x (List.mem_cons_of_mem a hx)]

theorem processLookup_count_zero (lk : Lookup) (tg : List (Nat × String))
    (h : (processLookup lk tg).2 = 0) : (processLookup lk tg).1 = lk := by
  have h' : (lk.subTable.map fun st => (processSubtable st tg).2).sum = 0 := h
  have hz : ∀ st ∈ lk.subTable, (processSubtable st tg).2 = 0 := by
    intro st hst
    exact List.sum_eq_zero_iff.mp h' _ (List.mem_map_of_mem _ hst)
  have hmap : lk.subTable.map (fun st => (processSubtable st tg).1)
      = lk.subTable :=
    map_eq_self_of_fix _ _ fun st hst => processSubtable_count_zero tg st (hz st hst)
  exact congrArg Lookup.mk hmap

theorem processLookup_of_cleared (lk : Lookup) (tg : List (Nat × String))
    (h : cleared tg lk) : processLookup lk tg = (lk, 0) := by
  have hid : ∀ st ∈ lk.subTable, processSubtable st tg = (st, 0) :=
    fun st hst =>
      processSubtable_of_cleared tg st fun c hc p hp => h st hst c hc p hp
  have h1 : lk.subTable.map (fun st => (processSubtable st tg).1)
      = lk.subTable :=
    map_eq_self_of_fix _ _ fun st hst => by rw [hid st hst]
  have h2 : (lk.subTable.map fun st => (processSubtable st tg).2).sum = 0 := by
    refine List.sum_eq_zero_iff.mpr ?_
    intro x hx
    obtain ⟨st, hst, rfl⟩ := List.mem_map.mp hx
    rw [hid st hst]
  unfold processLookup
  rw [h1, h2]

theorem processLookup_cleared (lk : Lookup) (tg : List (Nat × String))
    (hnd : ∀ st ∈ lk.subTable, ∀ c, st.coverage = some c → c.Nodup) :
    cleared tg (processLookup lk tg).1 := by
  intro st' hst' c' hc' p hp
  obtain ⟨st, hst, rfl⟩ := List.mem_map.mp hst'
  cases hcov : st.coverage with
  | none =>
    have hz : processSubtable st tg = (st, 0) := by
      unfold processSubtable
      rw [hcov]
    have hc'' : st.coverage = some c' := by
      rw [hz] at hc'
      exact hc'
    rw [hcov] at hc''
    cases hc''
  | some c =>
    exact processSubtable_cleared tg st c hcov (hnd st hst c hcov) c' hc' p hp

theorem processLookup_nodup (lk : Lookup) (tg : List (Nat × String))
    (hnd : ∀ st ∈ lk.subTable, ∀ c, st.coverage = some c → c.Nodup) :
    ∀ st' ∈ (processLookup lk tg).1.subTable,
      ∀ c, st'.coverage = some c → c.Nodup := by
  intro st' hst' c hc
  obtain ⟨st, hst, rfl⟩ := List.mem_map.mp hst'
  exact processSubtable_nodup tg st (hnd st hst) c hc

/-! ### The walk over the feature's lookup indices (`processLookups`) -/

theorem set_getElem?_self {α : Type} :
    ∀ (l : List α) (i : Nat) (a : α), l[i]? = some a → l.set i a = l
  | [], _, _, h => by cases h
  | b :: bs, 0, a, h => by
    simp only [List.getElem?_cons_zero, Option.some.injEq] at h
    subst h
    rfl
  | b :: bs, n + 1, a, h => by
    simp only [List.getElem?_cons_succ] at h
    simp only [List.set_cons_succ, set_getElem?_self bs n a h]

theorem processLookups_length (tg : List (Nat × String)) :
    ∀ (idxs : List Nat) (ls ls' : List Lookup) (n : Nat),
      processLookups tg ls idxs = some (ls', n) → ls'.length = ls.length := by
  intro idxs
  induction idxs with
  | nil =>
    intro ls ls' n h
    simp only [processLookups, Option.some.injEq, Prod.mk.injEq] at h
    rw [← h.1]
  | cons i is ih =>
    intro ls ls' n h
    simp only [processLookups] at h
    cases hl : ls[i]? with
    | none => rw [hl] at h; cases h
    | some lk =>
      rw [hl] at h
      dsimp only at h
      cases hrec : processLookups tg (ls.set i (processLookup lk tg).1) is with
      | none => rw [hrec] at h; cases h
      | some p =>
        obtain ⟨ls'', n'⟩ := p
        rw [hrec] at h
        simp only [Option.some.injEq, Prod.mk.injEq] at h
        obtain ⟨rfl, rfl⟩ := h
        rw [ih _ _ _ hrec, List.length_set]

theorem processLookups_untouched (tg : List (Nat × String)) :
    ∀ (idxs : List Nat) (ls ls' : List Lookup) (n : Nat),
      processLookups tg ls idxs = some (ls', n) →
      ∀ j, j ∉ idxs → ls'[j]? = ls[j]? := by
  intro idxs
  induction idxs with
  | nil =>
    intro ls ls' n h j _
    simp only [processLookups, Option.some.injEq, Prod.mk.injEq] at h
    rw [h.1]
  | cons i is ih =>
    intro ls ls' n h j hj
    simp only [processLookups] at h
    cases hl : ls[i]? with
    | none => rw [hl] at h; cases h
    | some lk =>
      rw [hl] at h
      dsimp only at h
      cases hrec : processLookups tg (ls.set i (processLookup lk tg).1) is with
      | none => rw [hrec] at h; cases h
      | some p =>
        obtain ⟨ls'', n'⟩ := p
        rw [hrec] at h
        simp only [Option.some.injEq, Prod.mk.injEq] at h
        obtain ⟨rfl, rfl⟩ := h
        have hji : i ≠ j := fun e => hj (e ▸ List.mem_cons_self i is)
        rw [ih _ _ _ hrec j fun hmem => hj (List.mem_cons_of_mem i hmem),
            List.getElem?_set_ne hji]

theorem processLookups_zero (tg : List (Nat × String)) :
    ∀ (idxs : List Nat) (ls ls' : List Lookup),
      processLookups tg ls idxs = some (ls', 0) → ls' = ls := by
  intro idxs
  induction idxs with
  | nil =>
    intro ls ls' h
    simp only [processLookups, Option.some.injEq, Prod.mk.injEq] at h
    rw [← h.1]
  | cons i is ih =>
    intro ls ls' h
    simp only [processLookups] at h
    cases hl : ls[i]? with
    | none => rw [hl] at h; cases h
    | some lk =>
      rw [hl] at h
      dsimp only at h
      cases hrec : processLookups tg (ls.set i (processLookup lk tg).1) is with
      | none => rw [hrec] at h; cases h
      | some p =>
        obtain ⟨ls'', n'⟩ := p
        rw [hrec] at h
        simp only [Option.some.injEq, Prod.mk.injEq] at h
        obtain ⟨rfl, hn⟩ := h
        have hp0 : (processLookup lk tg).2 = 0 := by omega
        have hn0 : n' = 0 := by omega
        subst hn0
        have e1 : (processLookup lk tg).1 = lk := processLookup_count_zero lk tg hp0
        rw [e1, set_getElem?_self ls i lk hl] at hrec
        exact ih _ _ hrec

theorem processLookups_isSome (tg : List (Nat × String)) :
    ∀ (idxs : List Nat) (ls : List Lookup),
      (∀ i ∈ idxs, i < ls.length) →
      ∃ ls' n, processLookups tg ls idxs = some (ls', n) := by
  intro idxs
  induction idxs with
  | nil => intro ls _; exact ⟨ls, 0, rfl⟩
  | cons i is ih =>
    intro ls hb
    have hi : i < ls.length := hb i (List.mem_cons_self i is)
    have hl : ls[i]? = some (ls[i]) := List.getElem?_eq_some_iff.mpr ⟨hi, rfl⟩
    obtain ⟨ls', n, hrec⟩ := ih (ls.set i (processLookup (ls[i]) tg).1)
      (by intro j hj; rw [List.length_set]; exact hb j (List.mem_cons_of_mem i hj))
    refine ⟨ls', (processLookup (ls[i]) tg).2 + n, ?_⟩
    simp only [processLookups]
    rw [hl]
    dsimp only
    rw [hrec]

theorem processLookups_bounds (tg : List (Nat × String)) :
    ∀ (idxs : List Nat) (ls ls' : List Lookup) (n : Nat),
      processLookups tg ls idxs = some (ls', n) →
      ∀ i ∈ idxs, i < ls.length := by
  intro idxs
  induction idxs with
  | nil => intro ls ls' n _ i hi; cases hi
  | cons i is ih =>
    intro ls ls' n h j hj
    simp only [processLookups] at h
    cases hl : ls[i]? with
    | none => rw [hl] at h; cases h
    | some lk =>
      rw [hl] at h
      dsimp only at h
      cases hrec : processLookups tg (ls.set i (processLookup lk tg).1) is with
      | none => rw [hrec] at h; cases h
      | some p =>
        rcases List.mem_cons.mp hj with rfl | hj
        · exact (List.getElem?_eq_some_iff.mp hl).1
        · have := ih _ _ _ (by rw [hrec]) j hj
          rwa [List.length_set] at this

theorem covNodup_set (ls : List Lookup) (i : Nat) (lk₁ : Lookup)
    (h : covNodup ls)
    (h1 : ∀ st ∈ lk₁.subTable, ∀ c, st.coverage = some c → c.Nodup) :
    covNodup (ls.set i lk₁) := by
  intro lk hmem
  rcases List.mem_or_eq_of_mem_set hmem with hmem | rfl
  · exact h lk hmem
  · exact h1

theorem processLookups_nodup (tg : List (Nat × String)) :
    ∀ (idxs : List Nat) (ls ls' : List Lookup) (n : Nat),
      covNodup ls → processLookups tg ls idxs = some (ls', n) →
      covNodup ls' := by
  intro idxs
  induction idxs with
  | nil =>
    intro ls ls' n hnd h
    simp only [processLookups, Option.some.injEq, Prod.mk.injEq] at h
    rw [← h.1]
    exact hnd
  | cons i is ih =>
    intro ls ls' n hnd h
    simp only [processLookups] at h
    cases hl : ls[i]? with
    | none => rw [hl] at h; cases h
    | some lk =>
      rw [hl] at h
      dsimp only at h
      cases hrec : processLookups tg (ls.set i (processLookup lk tg).1) is with
      | none => rw [hrec] at h; cases h
      | some p =>
        obtain ⟨ls'', n'⟩ := p
        rw [hrec] at h
        simp only [Option.some.injEq, Prod.mk.injEq] at h
        obtain ⟨rfl, rfl⟩ := h
        have hndlk : ∀ st ∈ lk.subTable, ∀ c, st.coverage = some c → c.Nodup :=
          hnd lk (List.mem_iff_getElem?.mpr ⟨i, hl⟩)
        exact ih _ _ _
          (covNodup_set ls i _ hnd (processLookup_nodup lk tg hndlk)) hrec

theorem processLookups_cleared (tg : List (Nat × String)) :
    ∀ (idxs : List Nat) (ls ls' : List Lookup) (n : Nat),
      covNodup ls → processLookups tg ls idxs = some (ls', n) →
      ∀ i ∈ idxs, ∀ lk', ls'[i]? = some lk' → cleared tg lk' := by
  intro idxs
  induction idxs with
  | nil => intro ls ls' n _ _ i hi; cases hi
  | cons i is ih =>
    intro ls ls' n hnd h j hj lk' hj'
    simp only [processLookups] at h
    cases hl : ls[i]? with
    | none => rw [hl] at h; cases h
    | some lk =>
      rw [hl] at h
      dsimp only at h
      cases hrec : processLookups tg (ls.set i (processLookup lk tg).1) is with
      | none => rw [hrec] at h; cases h
      | some p =>
        obtain ⟨ls'', n'⟩ := p
        rw [hrec] at h
        simp only [Option.some.injEq, Prod.mk.injEq] at h
        obtain ⟨rfl, rfl⟩ := h
        have hndlk : ∀ st ∈ lk.subTable, ∀ c, st.coverage = some c → c.Nodup :=
          hnd lk (List.mem_iff_getElem?.mpr ⟨i, hl⟩)
        have hnd₁ : covNodup (ls.set i (processLookup lk tg).1) :=
          covNodup_set ls i _ hnd (processLookup_nodup lk tg hndlk)
        by_cases hjs : j ∈ is
        · exact ih _ _ _ hnd₁ hrec j hjs lk' hj'
        · have hji : j = i := by
            rcases List.mem_cons.mp hj with h' | h'
            · exact h'
            · exact absurd h' hjs
          subst hji
          have hi : j < ls.length := (List.getElem?_eq_some_iff.mp hl).1
          have huntouched := processLookups_untouched tg is _ _ _ hrec j hjs
          rw [huntouched] at hj'
          have hset : (ls.set j (processLookup lk tg).1)[j]?
              = some (processLookup lk tg).1 := by
            simp [List.getElem?_set_self, hi]
          rw [hset] at hj'
          cases hj'
          exact processLookup_cleared lk tg hndlk

theorem processLookups_of_cleared (tg : List (Nat × String)) :
    ∀ (idxs : List Nat) (ls : List Lookup),
      (∀ i ∈ idxs, i < ls.length) →
      (∀ i ∈ idxs, ∀ lk, ls[i]? = some lk → cleared tg lk) →
      processLookups tg ls idxs = some (ls, 0) := by
  intro idxs
  induction idxs with
  | nil => intro ls _ _; rfl
  | cons i is ih =>
    intro ls hb hcl
    have hi : i < ls.length := hb i (List.mem_cons_self i is)
    have hl : ls[i]? = some (ls[i]) := List.getElem?_eq_some_iff.mpr ⟨hi, rfl⟩
    have hstep : processLookup (ls[i]) tg = ((ls[i] : Lookup), 0) :=
      processLookup_of_cleared (ls[i]) tg (hcl i (List.mem_cons_self i is) _ hl)
    have hset : ls.set i (processLookup (ls[i]) tg).1 = ls := by
      rw [hstep]
      exact set_getElem?_self ls i _ hl
    have hrec : processLookups tg ls is = some (ls, 0) :=
      ih ls (fun j hj => hb j (List.mem_cons_of_mem i hj))
        (fun j hj => hcl j (List.mem_cons_of_mem i hj))
    simp only [processLookups]
    rw [hl]
    dsimp only
    rw [hset, hrec, hstep]

/-! ### Branch equations and inversion for `fix_lxgw_halt_feature` -/

theorem fix_eq_no_gpos (font : Font) (ts : List Nat) (h : font.gpos = none) :
    fix_lxgw_halt_feature font ts =
      some (font, ⟨false, some .NoPositioningTable, 0⟩) := by
  unfold fix_lxgw_halt_feature
  rw [h]

theorem fix_eq_no_glyphs (font : Font) (ts : List Nat) (g : GPOS)
    (hg : font.gpos = some g) (h : resolveTargets font.cmap ts = []) :
    fix_lxgw_halt_feature font ts =
      some (font, ⟨false, some .NoGlyphsResolved, 0⟩) := by
  unfold fix_lxgw_halt_feature
  rw [hg]
  dsimp only
  rw [if_pos h]

theorem fix_eq_no_feature (font : Font) (ts : List Nat) (g : GPOS)
    (hg : font.gpos = some g) (hne : ¬ resolveTargets font.cmap ts = [])
    (hf : findHalt g.featureRecord = none) :
    fix_lxgw_halt_feature font ts =
      some (font, ⟨false, some .FeatureNotFound, 0⟩) := by
  unfold fix_lxgw_halt_feature
  rw [hg]
  dsimp only
  rw [if_neg hne, hf]

theorem fix_eq_processed (font : Font) (ts : List Nat) (g : GPOS)
    (fr : FeatureRecord) (ls' : List Lookup) (total : Nat)
    (hg : font.gpos = some g) (hne : ¬ resolveTargets font.cmap ts = [])
    (hf : findHalt g.featureRecord = some fr)
    (hp : processLookups (resolveTargets font.cmap ts) g.lookup
      fr.lookupListIndex = some (ls', total)) :
    fix_lxgw_halt_feature font ts =
      some ({ font with gpos := some { g with lookup := ls' } },
            if total = 0 then ⟨false, some .NoMatchingEntries, 0⟩
            else ⟨true, none, total⟩) := by
  unfold fix_lxgw_halt_feature
  rw [hg]
  dsimp only
  rw [if_neg hne, hf]
  dsimp only
  rw [hp]
  dsimp only
  by_cases ht : total = 0
  · rw [if_pos ht, if_pos ht]
  · rw [if_neg ht, if_neg ht]

theorem fix_inversion (font : Font) (ts : List Nat) (font' : Font)
    (res : RemovalResult)
    (h : fix_lxgw_halt_feature font ts = some (font', res)) :
    (font.gpos = none ∧ font' = font ∧
      res = ⟨false, some .NoPositioningTable, 0⟩) ∨
    (∃ g, font.gpos = some g ∧ resolveTargets font.cmap ts = [] ∧
      font' = font ∧ res = ⟨false, some .NoGlyphsResolved, 0⟩) ∨
    (∃ g, font.gpos = some g ∧ ¬ resolveTargets font.cmap ts = [] ∧
      findHalt g.featureRecord = none ∧ font' = font ∧
      res = ⟨false, some .FeatureNotFound, 0⟩) ∨
    (∃ g fr ls' total, font.gpos = some g ∧
      ¬ resolveTargets font.cmap ts = [] ∧
      findHalt g.featureRecord = some fr ∧
      processLookups (resolveTargets font.cmap ts) g.lookup
        fr.lookupListIndex = some (ls', total) ∧
      font' = { font with gpos := some { g with lookup := ls' } } ∧
      ((total = 0 ∧ res = ⟨false, some .NoMatchingEntries, 0⟩) ∨
       (total ≠ 0 ∧ res = ⟨true, none, total⟩))) := by
  unfold fix_lxgw_halt_feature at h
  cases hg : font.gpos with
  | none =>
    rw [hg] at h
    dsimp only at h
    simp only [Option.some.injEq, Prod.mk.injEq] at h
    exact Or.inl ⟨rfl, h.1.symm, h.2.symm⟩
  | some g =>
    rw [hg] at h
    dsimp only at h
    by_cases hne : resolveTargets font.cmap ts = []
    · rw [if_pos hne] at h
      simp only [Option.some.injEq, Prod.mk.injEq] at h
      exact Or.inr (Or.inl ⟨g, rfl, hne, h.1.symm, h.2.symm⟩)
    · rw [if_neg hne] at h
      cases hf : findHalt g.featureRecord with
      | none =>
        rw [hf] at h
        simp only [Option.some.injEq, Prod.mk.injEq] at h
        exact Or.inr (Or.inr (Or.inl ⟨g, rfl, hne, hf, h.1.symm, h.2.symm⟩))
      | some fr =>
        rw [hf] at h
        dsimp only at h
        cases hp : processLookups (resolveTargets font.cmap ts) g.lookup
            fr.lookupListIndex with
        | none => rw [hp] at h; cases h
        | some p =>
          obtain ⟨ls', total⟩ := p
          rw [hp] at h
          dsimp only at h
          refine Or.inr (Or.inr (Or.inr ⟨g, fr, ls', total, rfl, hne, hf,
            hp, ?_⟩))
          by_cases ht : total = 0
          · rw [if_pos ht] at h
            simp only [Option.some.injEq, Prod.mk.injEq] at h
            exact ⟨h.1.symm, Or.inl ⟨ht, h.2.symm⟩⟩
          · rw [if_neg ht] at h
            simp only [Option.some.injEq, Prod.mk.injEq] at h
            exact ⟨h.1.symm, Or.inr ⟨ht, h.2.symm⟩⟩

/-! ### Generic preservation of subtable predicates through the operation -/

theorem processGlyphs_preserves {P : Subtable → Prop}
    (hP : ∀ st g, P st → P (processPair st g).1) :
    ∀ (ts : List (Nat × String)) (st : Subtable),
      P st → P (processGlyphs st ts).1 := by
  intro ts
  induction ts with
  | nil => intro st h; exact h
  | cons p ps ih =>
    intro st h
    exact ih (processPair st p.2).1 (hP st p.2 h)

theorem processSubtable_preserves {P : Subtable → Prop}
    (hP : ∀ st g, P st → P (processPair st g).1)
    (ts : List (Nat × String)) (st : Subtable) (h : P st) :
    P (processSubtable st ts).1 := by
  unfold processSubtable
  cases hc : st.coverage with
  | none => exact h
  | some c => exact processGlyphs_preserves hP ts st h

theorem processLookup_preserves {P : Subtable → Prop}
    (hP : ∀ st g, P st → P (processPair st g).1)
    (lk : Lookup) (tg : List (Nat × String))
    (h : ∀ st ∈ lk.subTable, P st) :
    ∀ st' ∈ (processLookup lk tg).1.subTable, P st' := by
  intro st' hst'
  obtain ⟨st, hst, rfl⟩ := List.mem_map.mp hst'
  exact processSubtable_preserves hP tg st (h st hst)

theorem processLookups_preserves {P : Subtable → Prop}
    (hP : ∀ st g, P st → P (processPair st g).1)
    (tg : List (Nat × String)) :
    ∀ (idxs : List Nat) (ls ls' : List Lookup) (n : Nat),
      (∀ lk ∈ ls, ∀ st ∈ lk.subTable, P st) →
      processLookups tg ls idxs = some (ls', n) →
      ∀ lk ∈ ls', ∀ st ∈ lk.subTable, P st := by
  intro idxs
  induction idxs with
  | nil =>
    intro ls ls' n hls h
    simp only [processLookups, Option.some.injEq, Prod.mk.injEq] at h
    rw [← h.1]
    exact hls
  | cons i is ih =>
    intro ls ls' n hls h
    simp only [processLookups] at h
    cases hl : ls[i]? with
    | none => rw [hl] at h; cases h
    | some lk =>
      rw [hl] at h
      dsimp only at h
      cases hrec : processLookups tg (ls.set i (processLookup lk tg).1) is with
      | none => rw [hrec] at h; cases h
      | some p =>
        obtain ⟨ls'', n'⟩ := p
        rw [hrec] at h
        simp only [Option.some.injEq, Prod.mk.injEq] at h
        obtain ⟨rfl, rfl⟩ := h
        refine ih _ _ _ ?_ hrec
        intro lk' hmem st hst
        rcases List.mem_or_eq_of_mem_set hmem with hmem | rfl
        · exact hls lk' hmem st hst
        · exact processLookup_preserves hP lk tg
            (hls lk (List.mem_iff_getElem?.mpr ⟨i, hl⟩)) st hst

/-! ### Preservation of the Coverage/Value length invariant -/

theorem processPair_lenInv (st : Subtable) (g : String) (h : lenInv st) :
    lenInv (processPair st g).1 := by
  cases hc : st.coverage with
  | none => rw [processPair_coverage_none st g hc]; exact h
  | some c =>
    by_cases hg : g ∈ c
    · by_cases hf : st.format = some 2
      · cases hv : st.value with
        | none =>
          rw [processPair_mem_fmt2_noval st g c hc hf hv hg]
          intro _ c' _ v hv'
          have : st.value = some v := hv'
          rw [hv] at this
          cases this
        | some v =>
          have hlen : c.length = v.length := h hf c hc v hv
          have hidx : c.indexOf g < v.length :=
            hlen ▸ List.indexOf_lt_length.mpr hg
          rw [processPair_mem_fmt2 st g c v hc hf hv hg hidx]
          intro _ c' hc' v' hv'
          have hc'' : some (c.eraseIdx (c.indexOf g)) = some c' := hc'
          have hv'' : some (v.eraseIdx (c.indexOf g)) = some v' := hv'
          cases hc''
          cases hv''
          have hic : c.indexOf g < c.length := List.indexOf_lt_length.mpr hg
          rw [List.length_eraseIdx, List.length_eraseIdx]
          simp [hic, hidx, hlen]
      · rw [processPair_mem_not_fmt2 st g c hc hf hg]
        intro hf' _ _ _ _
        have : st.format = some 2 := hf'
        exact absurd this hf
    · rw [processPair_not_mem st g c hc hg]; exact h

/-! ### Claim theorems -/

/-- C3: for every input font and target set, if the halt-feature removal
operation returns `changed == false` — for any reason: no positioning
table, no resolved glyphs, no halt feature, or no matching coverage
entries — the font's positioning data is exactly as it was before the
call: no Coverage list, Value list or ValueCount field is modified. -/
theorem C3_unchanged_when_not_changed (font : Font) (ts : List Nat)
    (font' : Font) (res : RemovalResult)
    (h : fix_lxgw_halt_feature font ts = some (font', res))
    (hc : res.changed = false) : font' = font := by
  rcases fix_inversion font ts font' res h with
    ⟨_, hf, _⟩ | ⟨g, _, _, hf, _⟩ | ⟨g, _, _, _, hf, _⟩ |
    ⟨g, fr, ls', total, hg, hne, hfh, hp, hf, hres⟩
  · exact hf
  · exact hf
  · exact hf
  · rcases hres with ⟨ht, _⟩ | ⟨_, hres⟩
    · subst ht
      have hz : ls' = g.lookup := processLookups_zero _ _ _ _ hp
      subst hz
      subst hf
      obtain ⟨go, cm⟩ := font
      obtain rfl : go = some g := hg
      rfl
    · rw [hres] at hc
      cases hc

/-- C3 witness: a concrete no-op run (halt feature present but covering no
target glyph) returns `changed = false` and the identical font. -/
theorem C3_witness :
    fix_lxgw_halt_feature fontNoMatch [33] =
      some (fontNoMatch, ⟨false, some .NoMatchingEntries, 0⟩) ∧
    (fontNoMatch, (⟨false, some .NoMatchingEntries, 0⟩ : RemovalResult)).1
      = fontNoMatch :=
  ⟨by rfl,
   C3_unchanged_when_not_changed fontNoMatch [33] fontNoMatch
     ⟨false, some .NoMatchingEntries, 0⟩ (by rfl) (by rfl)⟩

/-- C4: each no-op condition yields the reason code identifying it —
NoPositioningTable when the font has no positioning table,
NoGlyphsResolved when no target code point resolves, FeatureNotFound when
no record is tagged "halt", NoMatchingEntries when the halt feature exists
but no coverage entry for a resolved glyph was found (including a halt
feature whose subtables carry no Coverage at all, where the walk removes
nothing) — and the four codes are pairwise distinct. -/
theorem C4_reason_codes (font : Font) (ts : List Nat) :
    (font.gpos = none →
      fix_lxgw_halt_feature font ts =
        some (font, ⟨false, some .NoPositioningTable, 0⟩)) ∧
    (∀ g, font.gpos = some g → resolveTargets font.cmap ts = [] →
      fix_lxgw_halt_feature font ts =
        some (font, ⟨false, some .NoGlyphsResolved, 0⟩)) ∧
    (∀ g, font.gpos = some g → resolveTargets font.cmap ts ≠ [] →
      findHalt g.featureRecord = none →
      fix_lxgw_halt_feature font ts =
        some (font, ⟨false, some .FeatureNotFound, 0⟩)) ∧
    (∀ g fr ls', font.gpos = some g → resolveTargets font.cmap ts ≠ [] →
      findHalt g.featureRecord = some fr →
      processLookups (resolveTargets font.cmap ts) g.lookup
        fr.lookupListIndex = some (ls', 0) →
      fix_lxgw_halt_feature font ts =
        some (font, ⟨false, some .NoMatchingEntries, 0⟩)) ∧
    (Reason.NoPositioningTable ≠ Reason.NoGlyphsResolved ∧
     Reason.NoPositioningTable ≠ Reason.FeatureNotFound ∧
     Reason.NoPositioningTable ≠ Reason.NoMatchingEntries ∧
     Reason.NoGlyphsResolved ≠ Reason.FeatureNotFound ∧
     Reason.NoGlyphsResolved ≠ Reason.NoMatchingEntries ∧
     Reason.FeatureNotFound ≠ Reason.NoMatchingEntries) := by
  refine ⟨fun h => fix_eq_no_gpos font ts h,
          fun g hg h => fix_eq_no_glyphs font ts g hg h,
          fun g hg hne hf => fix_eq_no_feature font ts g hg hne hf,
          fun g fr ls' hg hne hf hp => ?_, by decide⟩
  have heq := fix_eq_processed font ts g fr ls' 0 hg hne hf hp
  rw [if_pos rfl] at heq
  have hz : ls' = g.lookup := processLookups_zero _ _ _ _ hp
  subst hz
  rw [heq]
  obtain ⟨go, cm⟩ := font
  obtain rfl : go = some g := hg
  rfl

/-- C4 witness: the four no-op conditions realised on concrete fonts, each
reported with its own reason code. -/
theorem C4_witness :
    fix_lxgw_halt_feature fontNoGpos [33] =
      some (fontNoGpos, ⟨false, some .NoPositioningTable, 0⟩) ∧
    fix_lxgw_halt_feature fontNoGlyphs [33] =
      some (fontNoGlyphs, ⟨false, some .NoGlyphsResolved, 0⟩) ∧
    fix_lxgw_halt_feature fontNoFeature [33] =
      some (fontNoFeature, ⟨false, some .FeatureNotFound, 0⟩) ∧
    fix_lxgw_halt_feature fontNoMatch [33] =
      some (fontNoMatch, ⟨false, some .NoMatchingEntries, 0⟩) :=
  ⟨(C4_reason_codes fontNoGpos [33]).1 (by rfl),
   (C4_reason_codes fontNoGlyphs [33]).2.1 _ (by rfl) (by rfl),
   (C4_reason_codes fontNoFeature [33]).2.2.1 _ (by rfl) (by decide) (by rfl),
   (C4_reason_codes fontNoMatch [33]).2.2.2.1 _ ⟨"halt", [0]⟩ _ (by rfl)
     (by decide) (by rfl) (by rfl)⟩

/-- C5: for a font whose halt feature contains a format-2 subtable with
Coverage = [A, B, C] and ValueSequence = [v1, v2, v3], requesting removal
of the code point resolving to glyph B yields Coverage = [A, C],
ValueSequence = [v1, v3], totalRemovals = 1 and changed = true. -/
theorem C5_format2_example :
    fix_lxgw_halt_feature fontC5 [33] =
      some (⟨some ⟨[⟨"kern", [0]⟩, ⟨"halt", [0]⟩],
        [⟨[⟨some ["A", "C"], some 2, some [10, 30], 2⟩]⟩]⟩, [(33, "B")]⟩,
        ⟨true, none, 1⟩) := by rfl

/-- C7: a target glyph present in the Coverage of two different subtables
reachable from the halt feature's lookups is removed from both, the full
target set being re-checked in every subtable, and totalRemovals = 2. -/
theorem C7_two_subtables :
    fix_lxgw_halt_feature fontC7 [33] =
      some (⟨some ⟨[⟨"halt", [0, 1]⟩],
        [⟨[⟨some ["A", "C"], some 2, some [10, 30], 2⟩]⟩,
         ⟨[⟨some ["D"], some 1, none, 0⟩]⟩]⟩, [(33, "B")]⟩,
        ⟨true, none, 2⟩) := by rfl

/-- C9 counterexample: the exit code alone does not distinguish the two
success outcomes — "changes applied" and "no changes needed" both exit 0
while being different outcomes, so the claim that the exit signal
distinguishes the three outcomes fails. -/
theorem C9_exit_code_counterexample :
    exit_code Outcome.changesApplied = exit_code Outcome.noChangesNeeded ∧
    Outcome.changesApplied ≠ Outcome.noChangesNeeded := by
  decide

/-- C9 amended: the exit signal distinguishes success (exit code 0, both
with and without changes) from failure (exit code 1); the accompanying
human-readable messages are pairwise distinct, so the three outcomes are
distinguished by message rather than by exit code. -/
theorem C9_exit_semantics :
    (∀ o, exit_code o = 0 ↔
      (o = Outcome.changesApplied ∨ o = Outcome.noChangesNeeded)) ∧
    (∀ o, exit_code o = 1 ↔
      (o = Outcome.fileNotFound ∨ o = Outcome.otherFault)) ∧
    main_message Outcome.changesApplied ≠ main_message Outcome.noChangesNeeded ∧
    main_message Outcome.changesApplied ≠ main_message Outcome.fileNotFound ∧
    main_message Outcome.changesApplied ≠ main_message Outcome.otherFault ∧
    main_message Outcome.noChangesNeeded ≠ main_message Outcome.fileNotFound ∧
    main_message Outcome.noChangesNeeded ≠ main_message Outcome.otherFault ∧
    main_message Outcome.fileNotFound ≠ main_message Outcome.otherFault := by
  refine ⟨fun o => ?_, fun o => ?_, ?_, ?_, ?_, ?_, ?_, ?_⟩ <;>
    first
      | (cases o <;> decide)
      | decide

/-- C1: for every font with well-formed (duplicate-free) Coverage lists and
non-empty resolved target-glyph set, if the halt-feature removal operation
returns `changed == true`, then afterwards none of the resolved target
glyphs is present in the Coverage glyph list of any subtable of any lookup
referenced by the matched halt feature record. -/
theorem C1_all_targets_removed (font : Font) (ts : List Nat)
    (font' : Font) (res : RemovalResult) (g g' : GPOS) (fr : FeatureRecord)
    (hg : font.gpos = some g) (hnd : covNodup g.lookup)
    (hne : resolveTargets font.cmap ts ≠ [])
    (h : fix_lxgw_halt_feature font ts = some (font', res))
    (hch : res.changed = true)
    (hg' : font'.gpos = some g')
    (hfr : findHalt g.featureRecord = some fr) :
    ∀ i ∈ fr.lookupListIndex, ∀ lk, g'.lookup[i]? = some lk →
      ∀ st ∈ lk.subTable, ∀ c, st.coverage = some c →
        ∀ p ∈ resolveTargets font.cmap ts, p.2 ∉ c := by
  rcases fix_inversion font ts font' res h with
    ⟨hgn, _, _⟩ | ⟨g₀, _, hres, _, _⟩ | ⟨g₀, hg₀, _, hf₀, _, _⟩ |
    ⟨g₀, fr₀, ls', total, hg₀, _, hf₀, hp, hf, hres⟩
  · rw [hgn] at hg; cases hg
  · exact absurd hres hne
  · rw [hg₀] at hg
    cases hg
    rw [hf₀] at hfr
    cases hfr
  · rw [hg₀] at hg
    cases hg
    rw [hf₀] at hfr
    cases hfr
    rcases hres with ⟨_, hres⟩ | ⟨_, _⟩
    · rw [hres] at hch; cases hch
    · subst hf
      have hlook : g'.lookup = ls' := by
        have : some ({ g with lookup := ls' } : GPOS) = some g' := hg'
        cases this
        rfl
      rw [hlook]
      intro i hi lk hlk st hst c hc p hp'
      exact processLookups_cleared (resolveTargets font.cmap ts)
        fr.lookupListIndex g.lookup ls' total hnd hp i hi lk hlk
        st hst c hc p hp'

/-- C1 witness: the spec §8 example font satisfies all hypotheses and after
the run glyph "B" is gone from the halt lookup's Coverage. -/
theorem C1_witness :
    fontC5.gpos = some ⟨[⟨"kern", [0]⟩, ⟨"halt", [0]⟩], [⟨[subC5]⟩]⟩ ∧
    covNodup [⟨[subC5]⟩] ∧
    resolveTargets fontC5.cmap [33] ≠ [] ∧
    (∀ i ∈ [0], ∀ lk,
      ([⟨[⟨some ["A", "C"], some 2, some [10, 30], 2⟩]⟩] :
        List Lookup)[i]? = some lk →
      ∀ st ∈ lk.subTable, ∀ c, st.coverage = some c →
        ∀ p ∈ resolveTargets fontC5.cmap [33], p.2 ∉ c) := by
  refine ⟨by rfl, by decide, by decide, ?_⟩
  exact C1_all_targets_removed fontC5 [33]
    (⟨some ⟨[⟨"kern", [0]⟩, ⟨"halt", [0]⟩],
      [⟨[⟨some ["A", "C"], some 2, some [10, 30], 2⟩]⟩]⟩, [(33, "B")]⟩)
    ⟨true, none, 1⟩
    ⟨[⟨"kern", [0]⟩, ⟨"halt", [0]⟩], [⟨[subC5]⟩]⟩
    ⟨[⟨"kern", [0]⟩, ⟨"halt", [0]⟩],
      [⟨[⟨some ["A", "C"], some 2, some [10, 30], 2⟩]⟩]⟩
    ⟨"halt", [0]⟩
    (by rfl) (by decide) (by decide) (by rfl) (by rfl) (by rfl) (by rfl)

/-- C6: for every font with duplicate-free Coverage lists, if a run of the
halt-feature removal operation returns `changed = true`, a second run on
the resulting font with the same target set finds nothing left to remove:
it returns `changed = false` (reason NoMatchingEntries) and leaves the
font unchanged. -/
theorem C6_idempotent (font : Font) (ts : List Nat) (font' : Font)
    (res : RemovalResult) (g : GPOS)
    (hg : font.gpos = some g) (hnd : covNodup g.lookup)
    (h : fix_lxgw_halt_feature font ts = some (font', res))
    (hch : res.changed = true) :
    fix_lxgw_halt_feature font' ts =
      some (font', ⟨false, some .NoMatchingEntries, 0⟩) := by
  rcases fix_inversion font ts font' res h with
    ⟨hgn, _, _⟩ | ⟨g₀, _, _, _, hres⟩ | ⟨g₀, _, _, _, _, hres⟩ |
    ⟨g₀, fr, ls', total, hg₀, hne, hf₀, hp, hf, hres⟩
  · rw [hgn] at hg; cases hg
  · rw [hres] at hch; cases hch
  · rw [hres] at hch; cases hch
  · rw [hg₀] at hg
    cases hg
    subst hf
    have hcl : ∀ i ∈ fr.lookupListIndex, ∀ lk, ls'[i]? = some lk →
        cleared (resolveTargets font.cmap ts) lk :=
      processLookups_cleared _ _ _ _ _ hnd hp
    have hb : ∀ i ∈ fr.lookupListIndex, i < ls'.length := by
      intro i hi
      rw [processLookups_length _ _ _ _ _ hp]
      exact processLookups_bounds _ _ _ _ _ hp i hi
    have hrun : processLookups (resolveTargets font.cmap ts) ls'
        fr.lookupListIndex = some (ls', 0) :=
      processLookups_of_cleared _ _ _ hb hcl
    have heq := fix_eq_processed
      ({ font with gpos := some { g with lookup := ls' } }) ts
      { g with lookup := ls' } fr ls' 0 rfl hne hf₀ hrun
    rw [if_pos rfl] at heq
    exact heq

/-- C6 witness: the spec §8 example font — first run removes glyph "B"
with `changed = true`, the second run is the proved no-op. -/
theorem C6_witness :
    fix_lxgw_halt_feature
      (⟨some ⟨[⟨"kern", [0]⟩, ⟨"halt", [0]⟩],
        [⟨[⟨some ["A", "C"], some 2, some [10, 30], 2⟩]⟩]⟩,
        [(33, "B")]⟩ : Font) [33] =
      some (⟨some ⟨[⟨"kern", [0]⟩, ⟨"halt", [0]⟩],
        [⟨[⟨some ["A", "C"], some 2, some [10, 30], 2⟩]⟩]⟩,
        [(33, "B")]⟩, ⟨false, some .NoMatchingEntries, 0⟩) :=
  C6_idempotent fontC5 [33]
    (⟨some ⟨[⟨"kern", [0]⟩, ⟨"halt", [0]⟩],
      [⟨[⟨some ["A", "C"], some 2, some [10, 30], 2⟩]⟩]⟩, [(33, "B")]⟩)
    ⟨true, none, 1⟩
    ⟨[⟨"kern", [0]⟩, ⟨"halt", [0]⟩], [⟨[subC5]⟩]⟩
    (by rfl) (by decide) (by rfl) (by rfl)

/-- C8: the scan of the feature list stops at the first record tagged
"halt" (`findHalt` is a first-match search), so for a font whose feature
list contains two or more halt records only the first is processed:
a lookup index not referenced by that first record — in particular one
referenced only by a later halt record — is left exactly as it was. -/
theorem C8_first_halt_only (font : Font) (ts : List Nat) (font' : Font)
    (res : RemovalResult) (g g' : GPOS) (fr : FeatureRecord)
    (hg : font.gpos = some g)
    (htwo : 2 ≤ g.featureRecord.countP (fun r => r.featureTag == "halt"))
    (hfr : findHalt g.featureRecord = some fr)
    (h : fix_lxgw_halt_feature font ts = some (font', res))
    (hg' : font'.gpos = some g') :
    ∀ i, i ∉ fr.lookupListIndex → g'.lookup[i]? = g.lookup[i]? := by
  rcases fix_inversion font ts font' res h with
    ⟨hgn, _, _⟩ | ⟨g₀, hg₀, _, hf, _⟩ | ⟨g₀, hg₀, _, _, hf, _⟩ |
    ⟨g₀, fr₀, ls', total, hg₀, _, hf₀, hp, hf, _⟩
  · rw [hgn] at hg; cases hg
  · subst hf
    rw [hg'] at hg
    cases hg
    intro i _
    rfl
  · subst hf
    rw [hg'] at hg
    cases hg
    intro i _
    rfl
  · rw [hg₀] at hg
    cases hg
    rw [hf₀] at hfr
    cases hfr
    subst hf
    have hlook : g'.lookup = ls' := by
      have he : some ({ g with lookup := ls' } : GPOS) = some g' := hg'
      cases he
      rfl
    rw [hlook]
    intro i hi
    exact processLookups_untouched _ _ _ _ _ hp i hi

/-- C8 witness: a font with two halt records; lookup 1, referenced only by
the second halt record, still covers glyph "B" after the run. -/
theorem C8_witness :
    (2 ≤ (fontC8.gpos.get (by decide)).featureRecord.countP
      (fun r => r.featureTag == "halt")) ∧
    (⟨[⟨"halt", [0]⟩, ⟨"halt", [1]⟩],
      [⟨[⟨some ["A", "C"], some 2, some [10, 30], 2⟩]⟩,
       ⟨[⟨some ["B"], some 1, none, 0⟩]⟩]⟩ : GPOS).lookup[1]?
      = (⟨[⟨"halt", [0]⟩, ⟨"halt", [1]⟩],
          [⟨[subC5]⟩, ⟨[⟨some ["B"], some 1, none, 0⟩]⟩]⟩ : GPOS).lookup[1]? := by
  refine ⟨by decide, ?_⟩
  exact C8_first_halt_only fontC8 [33]
    (⟨some ⟨[⟨"halt", [0]⟩, ⟨"halt", [1]⟩],
      [⟨[⟨some ["A", "C"], some 2, some [10, 30], 2⟩]⟩,
       ⟨[⟨some ["B"], some 1, none, 0⟩]⟩]⟩, [(33, "B")]⟩)
    ⟨true, none, 1⟩
    ⟨[⟨"halt", [0]⟩, ⟨"halt", [1]⟩],
      [⟨[subC5]⟩, ⟨[⟨some ["B"], some 1, none, 0⟩]⟩]⟩
    ⟨[⟨"halt", [0]⟩, ⟨"halt", [1]⟩],
      [⟨[⟨some ["A", "C"], some 2, some [10, 30], 2⟩]⟩,
       ⟨[⟨some ["B"], some 1, none, 0⟩]⟩]⟩
    ⟨"halt", [0]⟩
    (by rfl) (by decide) (by rfl) (by rfl) (by rfl) 1 (by decide)

/-! ### The frame relation through the operation -/

theorem zip_eraseIdx {α β : Type} :
    ∀ (l₁ : List α) (l₂ : List β) (i : Nat), l₁.length = l₂.length →
      (l₁.eraseIdx i).zip (l₂.eraseIdx i) = (l₁.zip l₂).eraseIdx i
  | [], l₂, i, _ => by simp
  | a :: l₁, [], i, h => by simp at h
  | a :: l₁, b :: l₂, 0, _ => by simp
  | a :: l₁, b :: l₂, i + 1, h => by
    simp only [List.eraseIdx_cons_succ, List.zip_cons_cons]
    rw [zip_eraseIdx l₁ l₂ i (by simpa using h)]

theorem frameRel_refl (tg : List (Nat × String)) (st : Subtable) :
    frameRel tg st st := by
  refine ⟨rfl, fun _ => rfl, ?_⟩
  intro c hc
  exact ⟨c, hc, List.Sublist.refl c, fun _ _ => rfl,
    fun v _ hv hlen => ⟨v, hv, hlen, List.Sublist.refl _⟩⟩

theorem frameRel_trans (tg : List (Nat × String)) (a b c : Subtable)
    (h₁ : frameRel tg a b) (h₂ : frameRel tg b c) : frameRel tg a c := by
  obtain ⟨hf₁, hn₁, hc₁⟩ := h₁
  obtain ⟨hf₂, hn₂, hc₂⟩ := h₂
  refine ⟨hf₂.trans hf₁, ?_, ?_⟩
  · intro hnone
    have hb : b = a := hn₁ hnone
    have hcnone : b.coverage = none := by rw [hb]; exact hnone
    rw [hn₂ hcnone, hb]
  · intro ca hca
    obtain ⟨cb, hcb, hsub₁, hcount₁, hval₁⟩ := hc₁ ca hca
    obtain ⟨cc, hcc, hsub₂, hcount₂, hval₂⟩ := hc₂ cb hcb
    refine ⟨cc, hcc, hsub₂.trans hsub₁,
      fun x hx => (hcount₂ x hx).trans (hcount₁ x hx), ?_⟩
    intro v hfa hva hlen
    obtain ⟨vb, hvb, hlenb, hzip₁⟩ := hval₁ v hfa hva hlen
    obtain ⟨vc, hvc, hlenc, hzip₂⟩ := hval₂ vb (hf₁.trans hfa) hvb hlenb
    exact ⟨vc, hvc, hlenc, hzip₂.trans hzip₁⟩

theorem processPair_frameRel (tg : List (Nat × String)) (st : Subtable)
    (p : Nat × String) (hp : p ∈ tg) :
    frameRel tg st (processPair st p.2).1 := by
  cases hc : st.coverage with
  | none =>
    rw [processPair_coverage_none st p.2 hc]
    exact frameRel_refl tg st
  | some c =>
    by_cases hm : p.2 ∈ c
    case neg =>
      rw [processPair_not_mem st p.2 c hc hm]
      exact frameRel_refl tg st
    case pos =>
      refine ⟨processPair_format st p.2, ?_, ?_⟩
      · intro hnone
        rw [hc] at hnone
        cases hnone
      · intro c₀ hc₀
        have hcc : c₀ = c := by
          rw [hc] at hc₀
          cases hc₀
          rfl
        subst hcc
        refine ⟨c₀.erase p.2, processPair_coverage st p.2 c₀ hc,
          List.erase_sublist p.2 c₀,
          fun x hx => List.count_erase_of_ne (hx p hp) c₀, ?_⟩
        intro v hf2 hv hlen
        have hidx : c₀.indexOf p.2 < v.length :=
          hlen ▸ List.indexOf_lt_length.mpr hm
        have hic : c₀.indexOf p.2 < c₀.length := List.indexOf_lt_length.mpr hm
        have heq := processPair_mem_fmt2 st p.2 c₀ v hc hf2 hv hm hidx
        refine ⟨v.eraseIdx (c₀.indexOf p.2), by rw [heq], ?_, ?_⟩
        · rw [← List.eraseIdx_indexOf_eq_erase, List.length_eraseIdx,
            List.length_eraseIdx]
          simp [hic, hidx, hlen]
        · rw [← List.eraseIdx_indexOf_eq_erase, zip_eraseIdx c₀ v _ hlen]
          exact List.eraseIdx_sublist _ _

theorem processGlyphs_frameRel (tg : List (Nat × String)) :
    ∀ (ts : List (Nat × String)) (st : Subtable), (∀ p ∈ ts, p ∈ tg) →
      frameRel tg st (processGlyphs st ts).1 := by
  intro ts
  induction ts with
  | nil => intro st _; exact frameRel_refl tg st
  | cons p ps ih =>
    intro st hsub
    exact frameRel_trans tg _ _ _
      (processPair_frameRel tg st p (hsub p (List.mem_cons_self p ps)))
      (ih (processPair st p.2).1 fun q hq => hsub q (List.mem_cons_of_mem p hq))

theorem processSubtable_frameRel (tg : List (Nat × String)) (st : Subtable) :
    frameRel tg st (processSubtable st tg).1 := by
  unfold processSubtable
  cases hc : st.coverage with
  | none => exact frameRel_refl tg st
  | some c => exact processGlyphs_frameRel tg tg st fun _ h => h

theorem forall₂_frameRel_self (tg : List (Nat × String)) :
    ∀ l : List Subtable, List.Forall₂ (frameRel tg) l l
  | [] => List.Forall₂.nil
  | a :: as => List.Forall₂.cons (frameRel_refl tg a) (forall₂_frameRel_self tg as)

theorem forall₂_frameRel_trans (tg : List (Nat × String)) :
    ∀ {l₁ l₂ l₃ : List Subtable}, List.Forall₂ (frameRel tg) l₁ l₂ →
      List.Forall₂ (frameRel tg) l₂ l₃ → List.Forall₂ (frameRel tg) l₁ l₃ := by
  intro l₁ l₂ l₃ h₁ h₂
  induction h₁ generalizing l₃ with
  | nil => cases h₂; exact List.Forall₂.nil
  | cons hab htail ih =>
    cases h₂ with
    | cons hbc htail' =>
      exact List.Forall₂.cons (frameRel_trans tg _ _ _ hab hbc) (ih htail')

theorem forall₂_frameRel_processLookup (tg : List (Nat × String))
    (lk : Lookup) :
    List.Forall₂ (frameRel tg) lk.subTable (processLookup lk tg).1.subTable := by
  show List.Forall₂ (frameRel tg) lk.subTable
    (lk.subTable.map fun st => (processSubtable st tg).1)
  induction lk.subTable with
  | nil => exact List.Forall₂.nil
  | cons a as ih =>
    exact List.Forall₂.cons (processSubtable_frameRel tg a) ih

theorem processLookups_frameRel (tg : List (Nat × String)) :
    ∀ (idxs : List Nat) (ls ls' : List Lookup) (n : Nat),
      processLookups tg ls idxs = some (ls', n) →
      ∀ (j : Nat) (lk lk' : Lookup), ls[j]? = some lk → ls'[j]? = some lk' →
        List.Forall₂ (frameRel tg) lk.subTable lk'.subTable := by
  intro idxs
  induction idxs with
  | nil =>
    intro ls ls' n h j lk lk' h1 h2
    simp only [processLookups, Option.some.injEq, Prod.mk.injEq] at h
    rw [← h.1] at h2
    rw [h1] at h2
    cases h2
    exact forall₂_frameRel_self tg _
  | cons i is ih =>
    intro ls ls' n h j lk lk' h1 h2
    simp only [processLookups] at h
    cases hl : ls[i]? with
    | none => rw [hl] at h; cases h
    | some lk₀ =>
      rw [hl] at h
      dsimp only at h
      cases hrec : processLookups tg (ls.set i (processLookup lk₀ tg).1) is with
      | none => rw [hrec] at h; cases h
      | some q =>
        obtain ⟨ls'', n'⟩ := q
        rw [hrec] at h
        simp only [Option.some.injEq, Prod.mk.injEq] at h
        obtain ⟨rfl, rfl⟩ := h
        by_cases hij : j = i
        · subst hij
          have hlk : lk₀ = lk := by
            rw [h1] at hl
            cases hl
            rfl
          subst hlk
          have hj1 : (ls.set j (processLookup lk₀ tg).1)[j]?
              = some (processLookup lk₀ tg).1 := by
            simp [List.getElem?_set_self, (List.getElem?_eq_some_iff.mp h1).1]
          have h3 := ih _ _ _ hrec j _ lk' hj1 h2
          exact forall₂_frameRel_trans tg
            (forall₂_frameRel_processLookup tg lk₀) h3
        · have hj1 : (ls.set i (processLookup lk₀ tg).1)[j]? = some lk := by
            rw [List.getElem?_set_ne fun e => hij e.symm]
            exact h1
          exact ih _ _ _ hrec j lk lk' hj1 h2

/-- C2: the halt-feature removal operation preserves the format-2
Coverage/ValueSequence length invariant (if every format-2 subtable of the
lookup list satisfies `len(Coverage) == len(ValueSequence)` before the
call, every subtable of the resulting lookup list still does), because
every deletion of position idx from a Coverage with an equal-length Value
list deletes the same position idx from the Value list and stores the new
Value length in the ValueCount field — the second conjunct exhibits the
exact single-removal equation. -/
theorem C2_length_invariant (font : Font) (ts : List Nat) (font' : Font)
    (res : RemovalResult) (g g' : GPOS)
    (hg : font.gpos = some g) (hg' : font'.gpos = some g')
    (hlen : lenInvAll g.lookup)
    (h : fix_lxgw_halt_feature font ts = some (font', res)) :
    lenInvAll g'.lookup ∧
    (∀ (st : Subtable) (gname : String) (c : List String) (v : List Nat),
      st.format = some 2 → st.coverage = some c → st.value = some v →
      c.length = v.length → gname ∈ c →
      processPair st gname =
        ({ st with coverage := some (c.eraseIdx (c.indexOf gname)),
                   value := some (v.eraseIdx (c.indexOf gname)),
                   valueCount := (v.eraseIdx (c.indexOf gname)).length },
         1)) := by
  constructor
  · rcases fix_inversion font ts font' res h with
      ⟨hgn, _, _⟩ | ⟨g₀, hg₀, _, hf, _⟩ | ⟨g₀, hg₀, _, _, hf, _⟩ |
      ⟨g₀, fr, ls', total, hg₀, _, _, hp, hf, _⟩
    · rw [hgn] at hg; cases hg
    · subst hf
      rw [hg'] at hg
      cases hg
      exact hlen
    · subst hf
      rw [hg'] at hg
      cases hg
      exact hlen
    · rw [hg₀] at hg
      cases hg
      subst hf
      have hlook : g'.lookup = ls' := by
        have he : some ({ g with lookup := ls' } : GPOS) = some g' := hg'
        cases he
        rfl
      rw [hlook]
      intro lk hlk st hst
      exact processLookups_preserves processPair_lenInv
        (resolveTargets font.cmap ts) fr.lookupListIndex
        g.lookup ls' total hlen hp lk hlk st hst
  · intro st gname c v hf2 hcv hvv hl hm
    exact processPair_mem_fmt2 st gname c v hcv hf2 hvv hm
      (hl ▸ List.indexOf_lt_length.mpr hm)

/-- C2 witness: the spec §8 example run leaves the resulting subtable with
Coverage and Value lists of equal length. -/
theorem C2_witness :
    lenInvAll [⟨[⟨some ["A", "C"], some 2, some [10, 30], 2⟩]⟩] :=
  (C2_length_invariant fontC5 [33]
    (⟨some ⟨[⟨"kern", [0]⟩, ⟨"halt", [0]⟩],
      [⟨[⟨some ["A", "C"], some 2, some [10, 30], 2⟩]⟩]⟩, [(33, "B")]⟩)
    ⟨true, none, 1⟩
    ⟨[⟨"kern", [0]⟩, ⟨"halt", [0]⟩], [⟨[subC5]⟩]⟩
    ⟨[⟨"kern", [0]⟩, ⟨"halt", [0]⟩],
      [⟨[⟨some ["A", "C"], some 2, some [10, 30], 2⟩]⟩]⟩
    (by rfl) (by rfl) (by decide) (by rfl)).1

/-- C10: the operation only ever shrinks Coverage lists by removing target
glyphs: position by position, every lookup of the resulting font is
related to the original lookup by `frameRel` — the surviving Coverage is a
sublist of the original (relative order preserved), every glyph outside
the resolved target set keeps its occurrence count, and for format-2
subtables with a parallel equal-length Value list the surviving
(glyph, value) pairs are a sublist of the original pairing. -/
theorem C10_frame_effect (font : Font) (ts : List Nat) (font' : Font)
    (res : RemovalResult) (g g' : GPOS)
    (hg : font.gpos = some g) (hg' : font'.gpos = some g')
    (h : fix_lxgw_halt_feature font ts = some (font', res)) :
    ∀ (j : Nat) (lk lk' : Lookup), g.lookup[j]? = some lk →
      g'.lookup[j]? = some lk' →
      List.Forall₂ (frameRel (resolveTargets font.cmap ts))
        lk.subTable lk'.subTable := by
  rcases fix_inversion font ts font' res h with
    ⟨hgn, _, _⟩ | ⟨g₀, hg₀, _, hf, _⟩ | ⟨g₀, hg₀, _, _, hf, _⟩ |
    ⟨g₀, fr, ls', total, hg₀, _, _, hp, hf, _⟩
  · rw [hgn] at hg; cases hg
  · subst hf
    rw [hg'] at hg
    cases hg
    intro j lk lk' h1 h2
    rw [h1] at h2
    cases h2
    exact forall₂_frameRel_self _ _
  · subst hf
    rw [hg'] at hg
    cases hg
    intro j lk lk' h1 h2
    rw [h1] at h2
    cases h2
    exact forall₂_frameRel_self _ _
  · rw [hg₀] at hg
    cases hg
    subst hf
    have hlook : g'.lookup = ls' := by
      have he : some ({ g with lookup := ls' } : GPOS) = some g' := hg'
      cases he
      rfl
    rw [hlook]
    intro j lk lk' h1 h2
    exact processLookups_frameRel _ _ _ _ _ hp j lk lk' h1 h2

/-- C10 witness: in the spec §8 example run, the processed subtable list is
frame-related to the original one. -/
theorem C10_witness :
    List.Forall₂ (frameRel (resolveTargets fontC5.cmap [33]))
      [subC5] [⟨some ["A", "C"], some 2, some [10, 30], 2⟩] :=
  C10_frame_effect fontC5 [33]
    (⟨some ⟨[⟨"kern", [0]⟩, ⟨"halt", [0]⟩],
      [⟨[⟨some ["A", "C"], some 2, some [10, 30], 2⟩]⟩]⟩, [(33, "B")]⟩)
    ⟨true, none, 1⟩
    ⟨[⟨"kern", [0]⟩, ⟨"halt", [0]⟩], [⟨[subC5]⟩]⟩
    ⟨[⟨"kern", [0]⟩, ⟨"halt", [0]⟩],
      [⟨[⟨some ["A", "C"], some 2, some [10, 30], 2⟩]⟩]⟩
    (by rfl) (by rfl) (by rfl) 0
    ⟨[subC5]⟩ ⟨[⟨some ["A", "C"], some 2, some [10, 30], 2⟩]⟩
    (by rfl) (by rfl)
